import Mathlib

set_option autoImplicit false

namespace GhsPm2

/-!
Shallow embedding of the Gregory Horror Show Blender importer's decoder and
animation-timeline compiler, together with proofs of the specification's
claims about it.

Timeline algebra: `sum_scalehide_timelines`, `invert_scalehide_timeline`,
`simplify_scalehide_timeline` from `ghs/ghsimporter.py`.  A timeline is a
list of `(frame, value)` samples; frames are naturals, values rationals
(the source stores Blender fcurve values, i.e. floats that are always 0.0
or 1.0 on these code paths, and only compares them and takes maxima, all
of which is exact in ℚ).
-/

abbrev Timeline := List (Nat × ℚ)

/-- `timeline.insert(0, (0, firstval))` when the first sample's frame is
positive (the frame-0 synthesis step inside `sum_scalehide_timelines`). -/
def padZero (t : Timeline) : Timeline :=
  match t with
  | [] => []
  | (f, v) :: rest => if 0 < f then (0, v) :: (f, v) :: rest else (f, v) :: rest

/-- `last_keyframe`: running maximum of every sample frame over all
timelines, starting from 0. -/
def lastKeyframe (ts : List Timeline) : Nat :=
  ts.foldl (fun m t => t.foldl (fun m' p => max m' p.1) m) 0

/-- The `framenum_to_keyframed_timeline_indices_and_vals` mapping of
`sum_scalehide_timelines`, read back at one frame: the `(index, value)`
pairs of every sample at frame `f`, in timeline order then sample order,
with timeline indices counted from `i`. -/
def entriesAtFrom (i : Nat) (ts : List Timeline) (f : Nat) : List (Nat × ℚ) :=
  match ts with
  | [] => []
  | t :: rest =>
      (t.filterMap fun p => if p.1 = f then some (i, p.2) else none)
        ++ entriesAtFrom (i + 1) rest f

def entriesAt (ts : List Timeline) (f : Nat) : List (Nat × ℚ) :=
  entriesAtFrom 0 ts f

/-- Python `max()` over a nonempty list (the empty case is never reached
by the caller, which guarantees at least two timelines). -/
def listMax : List ℚ → ℚ
  | [] => 0
  | x :: xs => xs.foldl max x

/-- Apply the `current_val_per_timelines[timeline_i] = value` updates of
one sweep step. -/
def setAll (cur : List ℚ) (es : List (Nat × ℚ)) : List ℚ :=
  es.foldl (fun c p => c.set p.1 p.2) cur

/-- The frame sweep of `sum_scalehide_timelines`: walk the candidate
frames in increasing order, skip frames at which no timeline has a
sample, otherwise update the per-timeline current values and append the
maximum. -/
def sweepLoop (padded : List Timeline) (cur : List ℚ) (acc : Timeline) :
    List Nat → Timeline
  | [] => acc
  | f :: fs =>
      let es := entriesAt padded f
      if es.isEmpty then sweepLoop padded cur acc fs
      else
        let cur' := setAll cur es
        sweepLoop padded cur' (acc ++ [(f, listMax cur')]) fs

/-- `sum_scalehide_timelines` (ghsimporter.py:912-954). -/
def sum_scalehide_timelines (timelines : List Timeline) : Timeline :=
  match timelines.filter (fun t => !t.isEmpty) with
  | [] => []
  | [t] => t
  | ts@(_ :: _ :: _) =>
      let padded := ts.map padZero
      sweepLoop padded (List.replicate padded.length 1) []
        (List.range (lastKeyframe padded + 1))

/-- `invert_scalehide_timeline` (ghsimporter.py:957-972). -/
def invert_scalehide_timeline (timeline : Timeline) : Timeline :=
  timeline.map fun p => (p.1, if p.2 = 0 then 1 else 0)

/-- The loop of `simplify_scalehide_timeline`, with `previous_value`
threaded explicitly (`none` models Python's initial `None`). -/
def simplifyGo : Option ℚ → Timeline → Timeline
  | _, [] => []
  | prev, (f, v) :: rest =>
      if some v ≠ prev then (f, v) :: simplifyGo (some v) rest
      else simplifyGo (some v) rest

/-- `simplify_scalehide_timeline` (ghsimporter.py:975-984). -/
def simplify_scalehide_timeline (timeline : Timeline) : Timeline :=
  simplifyGo none timeline

/-- Claim-worded description of `simplify`: the first sample is always
kept, and each later sample is dropped exactly when its value equals the
value of the immediately preceding input sample. -/
def simplifyDropSpec : Timeline → Timeline
  | [] => []
  | x :: rest =>
      x :: (rest.zip ((x :: rest).map Prod.snd)).filterMap
        fun p => if p.1.2 = p.2 then none else some p.1

-- ## Claim-worded description of union (for C7) -------------------------

/-- A timeline is well-formed when its sample frames strictly increase
(the spec's "frame-monotonic and deduplicated" invariant; fcurve
keyframes are kept in increasing frame order by Blender). -/
def TimelineSorted (t : Timeline) : Prop :=
  t.Pairwise (fun p q => p.1 < q.1)

instance (t : Timeline) : Decidable (TimelineSorted t) := by
  unfold TimelineSorted
  infer_instance

/-- `t.any (fun p => p.1 = f)`: does the timeline have a sample at `f`? -/
def hasSampleAt (t : Timeline) (f : Nat) : Bool :=
  t.any fun p => p.1 = f

/-- The "current value" of a timeline just before frame `a`: the value of
its last sample on a frame `< a`, or 1 (the initial per-timeline current
value) when there is none. -/
def currentValBefore (t : Timeline) (a : Nat) : ℚ :=
  (((t.filter fun p => p.1 < a).getLast?).map Prod.snd).getD 1

/-- The "current value" of a timeline at frame `f` during the sweep. -/
def currentValAt (t : Timeline) (f : Nat) : ℚ :=
  currentValBefore t (f + 1)

/-- Claim-worded description of `sum_scalehide_timelines` on two or more
nonempty inputs: synthesize a frame-0 sample for inputs lacking one, then
record, at each distinct sample frame in increasing order, the max over
all inputs' current values (initialized to 1). -/
def unionSweepSpec (ts : List Timeline) : Timeline :=
  let padded := ts.map padZero
  (List.range (lastKeyframe padded + 1)).filterMap fun f =>
    if padded.any (fun t => hasSampleAt t f) then
      some (f, listMax (padded.map fun t => currentValAt t f))
    else none

-- ## Definitions for C1: default-visibility resolution ------------------

/-- The four `anim_method` values accepted by `GhsImporter.__init__`. -/
inductive AnimMethod where
  | oneLong
  | oneLongEvery100
  | driver
  | separateArmatures
deriving DecidableEq

/-- The timeline computation of
`GhsImporter.calc_default_scalehide_fcurves` (ghsimporter.py:861-897):
under `1LONG`/`1LONG_EVERY100`, a nonempty default timeline whose first
sample is not on frame 0 first gets a `(0, 0)` sample prepended; then the
new default timeline is
`simplify(sum([default, invert(sum(overwriting))]))`. -/
def calc_default_scalehide_timeline (method : AnimMethod)
    (defaultTimeline : Timeline) (overwriting : List Timeline) : Timeline :=
  let d :=
    if (method = .oneLong ∨ method = .oneLongEvery100)
        ∧ defaultTimeline ≠ [] ∧ (defaultTimeline.headD (0, 0)).1 ≠ 0 then
      (0, 0) :: defaultTimeline
    else defaultTimeline
  simplify_scalehide_timeline
    (sum_scalehide_timelines
      [d, invert_scalehide_timeline (sum_scalehide_timelines overwriting)])

-- ## Definitions for C4: triangle-strip triangulation --------------------

/-- The `i`-th consecutive vertex triple of a strip starting at mesh
vertex index `off`, in strip order. -/
def stripTri (off i : Nat) : Nat × Nat × Nat :=
  (off + i, off + i + 1, off + i + 2)

/-- Swapping the first two vertices reverses a triangle's winding. -/
def revWinding (t : Nat × Nat × Nat) : Nat × Nat × Nat :=
  (t.2.1, t.1, t.2.2)

/-- The triangles `Pm2Importer.import_mesh` (pm2importer.py:74-85) emits
for one Prim of `n` vertices whose vertices start at mesh index `off`:
`(oi+1, oi, oi+2)` for even `i`, `(oi, oi+1, oi+2)` for odd `i`. -/
def trisForPrim (off n : Nat) : List (Nat × Nat × Nat) :=
  (List.range (n - 2)).map fun i =>
    if i % 2 = 0 then (off + i + 1, off + i, off + i + 2)
    else (off + i, off + i + 1, off + i + 2)

/-- The full face list of `import_mesh` over the flattened prims (given
by their vertex counts), threading `face_offset`. -/
def meshFaces : Nat → List Nat → List (Nat × Nat × Nat)
  | _, [] => []
  | off, n :: ns => trisForPrim off n ++ meshFaces (off + n) ns

-- ## Definitions for C5: clip scheduling ---------------------------------

/-- `fullanimlengths` for one clip (ghsimporter.py:236-246): start from
the declared `anim_len`, take the max with every mpr bone's pose-sample
count, then with every `keyframe_start` strictly below 999. -/
def full_anim_length (animLen : Nat) (mprBoneLens : List Nat)
    (keyframeStarts : List Nat) : Nat :=
  let l1 := mprBoneLens.foldl (fun acc n => max acc n) animLen
  keyframeStarts.foldl (fun acc s => if s < 999 then max acc s else acc) l1

/-- Claim-worded resolved clip length: the maximum of the declared
length, the longest pose-track frame count, and the largest
`keyframe_start` below the sentinel 999. -/
def resolvedLenSpec (animLen : Nat) (mprBoneLens : List Nat)
    (keyframeStarts : List Nat) : Nat :=
  max (max animLen (mprBoneLens.foldl max 0))
    ((keyframeStarts.filter fun s => s < 999).foldl max 0)

/-- `next_anim_start_frame` under `1LONG` (ghsimporter.py:379). -/
def next_anim_start_1long (frameOffset lastFrame : Nat) : Nat :=
  frameOffset + lastFrame + 1

/-- `next_anim_start_frame` under `1LONG_EVERY100` (ghsimporter.py:381). -/
def next_anim_start_every100 (frameOffset lastFrame : Nat) : Nat :=
  (frameOffset + lastFrame + 100) / 100 * 100

/-- The per-clip frame offsets produced by threading `frame_offset`
through the per-anim loop (`frame_offset = next_anim_start_frame` at the
end of each concatenated clip). -/
def clipOffsets (step : Nat → Nat → Nat) : Nat → List Nat → List Nat
  | _, [] => []
  | off, l :: ls => off :: clipOffsets step (step off l) ls

-- ## Definitions for C10: positional clip pairing ------------------------

/-- `zip(anims, mprs)` of the per-animation loop (ghsimporter.py:256). -/
def clipPairs {α β : Type} (anims : List α) (mprs : List β) : List (α × β) :=
  anims.zip mprs

/-- mpr loading (ghsimporter.py:123-129): no mpr directory means an empty
pose-track list; otherwise the loaded tracks. -/
def loadMprs {α : Type} : Option (List α) → List α
  | none => []
  | some ms => ms

-- ## Definitions for C3: vertex normalization ----------------------------

/-- The state of a `Prim`/`AnimatedPrim` (pm2model.py:41-131): the four
per-vertex attribute lists, the two animation-delta lists (empty and
unused for a static `Prim`), and the `adjust_all_values` flag. -/
structure Prim where
  positions : List (ℚ × ℚ × ℚ)
  normals : List (ℚ × ℚ × ℚ)
  colors : List (ℚ × ℚ × ℚ × ℚ)
  texcoords : List (ℚ × ℚ)
  position_animdeltas : List (ℚ × ℚ × ℚ)
  normal_animdeltas : List (ℚ × ℚ × ℚ)
  adjust_all_values : Bool
deriving DecidableEq

/-- The empty prim, as constructed by `Prim.__init__`. -/
def Prim.empty (adjustAllValues : Bool) : Prim :=
  ⟨[], [], [], [], [], [], adjustAllValues⟩

/-- `Prim.add_vertex` (pm2model.py:73-96): when `adjust_all_values`,
divide position by 1024, normal by 4096 and texcoord by 4096; color is
always divided by 256 (RGB) and 128 (alpha). -/
def Prim.add_vertex (prim : Prim) (position normal : ℚ × ℚ × ℚ)
    (color : ℚ × ℚ × ℚ × ℚ) (texcoord : ℚ × ℚ) : Prim :=
  let position' := if prim.adjust_all_values then
      (position.1 / 1024, position.2.1 / 1024, position.2.2 / 1024)
    else position
  let normal' := if prim.adjust_all_values then
      (normal.1 / 4096, normal.2.1 / 4096, normal.2.2 / 4096)
    else normal
  let texcoord' := if prim.adjust_all_values then
      (texcoord.1 / 4096, texcoord.2 / 4096)
    else texcoord
  let color' :=
    (color.1 / 256, color.2.1 / 256, color.2.2.1 / 256, color.2.2.2 / 128)
  { prim with
      positions := prim.positions ++ [position']
      normals := prim.normals ++ [normal']
      colors := prim.colors ++ [color']
      texcoords := prim.texcoords ++ [texcoord'] }

/-- `AnimatedPrim.add_vertex` (pm2model.py:115-131): the base
`add_vertex`, plus the morph deltas with the same position/normal
divisors when `adjust_all_values`. -/
def Prim.add_vertex_animated (prim : Prim) (position normal : ℚ × ℚ × ℚ)
    (color : ℚ × ℚ × ℚ × ℚ) (texcoord : ℚ × ℚ)
    (position_animdelta normal_animdelta : ℚ × ℚ × ℚ) : Prim :=
  let base := prim.add_vertex position normal color texcoord
  let pd := if prim.adjust_all_values then
      (position_animdelta.1 / 1024, position_animdelta.2.1 / 1024,
        position_animdelta.2.2 / 1024)
    else position_animdelta
  let nd := if prim.adjust_all_values then
      (normal_animdelta.1 / 4096, normal_animdelta.2.1 / 4096,
        normal_animdelta.2.2 / 4096)
    else normal_animdelta
  { base with
      position_animdeltas := base.position_animdeltas ++ [pd]
      normal_animdeltas := base.normal_animdeltas ++ [nd] }

-- ## Definitions for C6: per-bone keyframe compilation -------------------

/-- Identity of a scalehide bone: a real per-submodel bone
`b{boneidx}_p{pm2idx:03x}_hide` (shared through
`pm2idx_to_scalehidebone`), or a disposable
`a{animidx}_b{boneidx}_k{start}_DELETEME` bone created for a keyframe
with no submodel. -/
inductive Slot where
  | real (pm2idx : Int)
  | deleteme (animidx boneidx start : Nat)
deriving DecidableEq

/-- A Blender fcurve as far as these claims need it: samples sorted by
frame; `keyframe_insert` on an existing frame replaces that frame's
value. -/
abbrev Curve := List (Nat × ℚ)

def insertKey : Curve → Nat → ℚ → Curve
  | [], f, v => [(f, v)]
  | (g, w) :: rest, f, v =>
      if f < g then (f, v) :: (g, w) :: rest
      else if f = g then (f, v) :: rest
      else (g, w) :: insertKey rest f v

/-- Keyframe the curve stored under `key`, creating the curve on first
use (as `keyframe_insert` creates fcurves). -/
def setCurve {κ : Type} [DecidableEq κ] (assoc : List (κ × Curve))
    (key : κ) (f : Nat) (v : ℚ) : List (κ × Curve) :=
  match assoc with
  | [] => [(key, insertKey [] f v)]
  | (k, c) :: rest =>
      if k = key then (k, insertKey c f v) :: rest
      else (k, c) :: setCurve rest key f v

def getCurve {κ : Type} [DecidableEq κ] (assoc : List (κ × Curve))
    (key : κ) : Curve :=
  match assoc with
  | [] => []
  | (k, c) :: rest => if k = key then c else getCurve rest key

/-- One GHS keyframe record:
`(keyframe_start, pm2, interp_type, interp_start, interp_delta)`. -/
structure GhsKeyframe where
  start : Nat
  pm2 : Option Int
  interp_type : Int
  interp_start : ℚ
  interp_delta : ℚ

/-- Compiler state threaded through the keyframe loop. -/
structure CompState where
  scaleCurves : List (Slot × Curve)
  shapekeyCurves : List (Int × Curve)
  cache : List Int            -- pm2idx_to_scalehidebone keys
  loaded : List Int           -- pm2idx_to_meshobj keys
  alreadyKeyframed : List Int -- shapekeys_already_keyframed
deriving DecidableEq

def CompState.empty : CompState := ⟨[], [], [], [], []⟩

/-- Per-animation, per-bone context of the keyframe loop. -/
structure BoneCtx where
  concat : Bool          -- anim_method ∈ \x7b"1LONG", "1LONG_EVERY100"\x7d
  frameOffset : Nat
  thisAnimStart : Nat
  endHideFrame : Nat     -- current_anim_endhide_frame
  isLastAnim : Bool
  animidx : Nat
  boneidx : Nat
  defaultPm2 : Option Int  -- default submodel owned by this bone, if any
  animated : Int → Bool    -- submodels whose mesh has an "Anim" shape key

/-- `(interp_start, interp_end)` from `interp_type`
(ghsimporter.py:426-442): type 0 is constant `interp_start`, type 1 is
`(0,1)`, type 2 is `(interp_start, interp_start+interp_delta)`, type −1
is `(1,0)`, anything else warns and is constant 0. -/
def interpBounds (k : GhsKeyframe) : ℚ × ℚ :=
  if k.interp_type = 0 then (k.interp_start, k.interp_start)
  else if k.interp_type = 1 then (0, 1)
  else if k.interp_type = 2 then
    (k.interp_start, k.interp_start + k.interp_delta)
  else if k.interp_type = -1 then (1, 0)
  else (0, 0)

/-- One iteration of the per-bone keyframe loop
(ghsimporter.py:415-712), for a non-sentinel keyframe `k` with lookahead
`nk`, on the non-DRIVER shapekey path within a single armature
(`ctx.concat` selects the blocks gated on 1LONG/1LONG_EVERY100).  The
keyframe-interpolation mode settings (CONSTANT/LINEAR) are not modelled:
they never change sample values.  Returns the new state, the new
`prev_pm2idx` and the new `first_delta_frame`. -/
def keyframeStep (ctx : BoneCtx) (st : CompState) (prev : Option Int)
    (firstDelta : Option Nat) (kidx : Nat) (k nk : GhsKeyframe) :
    CompState × Option Int × Option Nat :=
  let ie := (interpBounds k).2
  let is0 := (interpBounds k).1
  -- repair of non-increasing keyframe starts (ghsimporter.py:444-458);
  -- the Python divides by `next_keyframe_start - keyframe_start`, which
  -- is nonzero whenever this branch is reachable on sentinel-terminated
  -- data (ℚ division by zero would differ from Python's
  -- ZeroDivisionError, but no theorem below touches that case)
  let rep : ℚ × Nat :=
    match firstDelta with
    | some fd =>
        let iscale : ℚ := 1 - (((nk.start : ℚ) - (fd : ℚ))
          / ((nk.start : ℚ) - (k.start : ℚ)))
        (is0 + iscale * (ie - is0), fd)
    | none => (is0, k.start)
  let is1 := rep.1
  let kstart := rep.2
  let firstDelta' : Option Nat :=
    if nk.start ≤ kstart then some (kstart + 1) else none
  -- create the scalehide bone or retrieve the cached one
  -- (ghsimporter.py:462-500)
  let slotInfo : Slot × Bool × List Int :=
    match k.pm2 with
    | some i =>
        if i ∈ st.cache then (Slot.real i, true, st.cache)
        else if 0 ≤ i then (Slot.real i, false, st.cache ++ [i])
        else (Slot.deleteme ctx.animidx ctx.boneidx kstart, false, st.cache)
    | none => (Slot.deleteme ctx.animidx ctx.boneidx kstart, false, st.cache)
  let slot := slotInfo.1
  let repeated := slotInfo.2.1
  let cache' := slotInfo.2.2
  -- scalehide keyframes (ghsimporter.py:506-570)
  let sc0 := st.scaleCurves
  -- hide later pm2s from previous animations (frame 0, first time only)
  let sc1 := if ctx.concat ∧ ¬repeated then setCurve sc0 slot 0 0 else sc0
  -- hide previous pm2s from later animations
  let sc2 := if ctx.concat ∧ ¬ctx.isLastAnim then
      setCurve sc1 slot ctx.endHideFrame 0
    else sc1
  -- hide this bone's default scalehide if not shown this anim
  let sc3 :=
    if ctx.concat then
      match ctx.defaultPm2 with
      | some d =>
          if Slot.real d ≠ slot then
            setCurve sc2 (Slot.real d) ctx.thisAnimStart 0
          else sc2
      | none => sc2
    else sc2
  -- extra visible keyframe at anim start when the first keyframe is late
  let sc4 := if ctx.concat ∧ kidx = 0 ∧ 0 < kstart then
      setCurve sc3 slot ctx.frameOffset 1
    else sc3
  -- visible at this keyframe
  let sc5 := setCurve sc4 slot (ctx.frameOffset + kstart) 1
  -- hidden just before, when the previous keyframe showed another pm2
  let sc6 := if prev ≠ k.pm2 ∧ 0 < kstart ∧ 0 < kidx then
      setCurve sc5 slot (ctx.frameOffset + kstart - 1) 0
    else sc5
  -- hidden at the next keyframe, when it shows another pm2
  let sc7 := if k.pm2 ≠ nk.pm2 ∧ nk.start < 999 then
      setCurve sc6 slot (ctx.frameOffset + nk.start) 0
    else sc6
  -- hidden at the pending delta frame
  let sc8 :=
    match firstDelta' with
    | some fd => setCurve sc7 slot (ctx.frameOffset + fd) 0
    | none => sc7
  let st1 : CompState := { st with scaleCurves := sc8, cache := cache' }
  -- load the model and keyframe its shape key (ghsimporter.py:576-712)
  match k.pm2 with
  | none => (st1, k.pm2, firstDelta')
  | some i =>
      if i ∈ st1.loaded ∨ 0 ≤ i then
        let st2 := if i ∈ st1.loaded then st1
          else { st1 with loaded := st1.loaded ++ [i] }
        if ctx.animated i then
          let sk0 := setCurve st2.shapekeyCurves i
            (ctx.frameOffset + kstart) is1
          let ska : List (Int × Curve) × List Int :=
            if ctx.concat ∧ i ∉ st2.alreadyKeyframed
                ∧ 0 < ctx.frameOffset + kstart then
              (setCurve sk0 i ctx.frameOffset is1,
                st2.alreadyKeyframed ++ [i])
            else (sk0, st2.alreadyKeyframed)
          let sk2 := if nk.start < 999 then
              setCurve ska.1 i (ctx.frameOffset + nk.start) ie
            else ska.1
          ({ st2 with shapekeyCurves := sk2, alreadyKeyframed := ska.2 },
            k.pm2, firstDelta')
        else (st2, k.pm2, firstDelta')
      else
        -- unloaded negative pm2idx: `continue` (skip the shapekey part)
        (st1, k.pm2, firstDelta')

/-- The per-bone keyframe loop (ghsimporter.py:410-421 plus
`keyframeStep`): stop at the first sentinel (`start >= 999`); a
non-sentinel final keyframe would make the Python read
`next_keyframe["pm2"]` from `None` and raise, modelled as `none` (real
keyframe lists are sentinel-terminated). -/
def processKeyframes (ctx : BoneCtx) :
    CompState → Option Int → Option Nat → Nat → List GhsKeyframe →
      Option CompState
  | st, _, _, _, [] => some st
  | st, prev, firstDelta, kidx, k :: rest =>
      if 999 ≤ k.start then some st
      else
        match rest.head? with
        | none => none
        | some nk =>
            let r := keyframeStep ctx st prev firstDelta kidx k nk
            processKeyframes ctx r.1 r.2.1 r.2.2 (kidx + 1) rest

/-- One bone within one animation (ghsimporter.py:390-712): an empty
keyframe list keyframes this bone's default scalehide bone visible at
the animation start; otherwise the keyframe list is traversed with
lookahead, starting from `prev_pm2idx = None`, `first_delta_frame =
None`, `keyframeidx = 0`. -/
def processBone (ctx : BoneCtx) (st : CompState)
    (keyframes : List GhsKeyframe) : Option CompState :=
  if keyframes.isEmpty then
    some (match ctx.defaultPm2 with
      | some d =>
          { st with scaleCurves :=
              setCurve st.scaleCurves (Slot.real d) ctx.thisAnimStart 1 }
      | none => st)
  else
    processKeyframes ctx st none none 0 keyframes

/-- The C6 scenario: one joint, a single animation under `1LONG`
(offset 0), no default submodel on the joint, submodel 5 animated. -/
def ctxC6 : BoneCtx :=
  { concat := true
    frameOffset := 0
    thisAnimStart := 0
    endHideFrame := 0
    isLastAnim := true
    animidx := 0
    boneidx := 0
    defaultPm2 := none
    animated := fun i => i == 5 }

/-- The C6 keyframe list:
`[(0, id=5, type=1, 0, 0), (10, id=5, type=1, 0, 0), (999, null, 0, 0, 0)]`. -/
def kfsC6 : List GhsKeyframe :=
  [⟨0, some 5, 1, 0, 0⟩, ⟨10, some 5, 1, 0, 0⟩, ⟨999, none, 0, 0, 0⟩]

-- ## Definitions for C2: the pm2 decoder ---------------------------------

/-- The decoder's two failure classes: `truncated` is the `EOFError`
raised by `read_unless_eof` (common/common.py:5-15), `invalidFormat` is
the `ValueError` raised for a bad magic, an unknown type code, or an
unknown VIF command (pm2model.py:170, 172, 196). -/
inductive DecodeErr where
  | truncated
  | invalidFormat
deriving DecidableEq

/-- Little-endian unsigned value of a byte list. -/
def leNat : List Nat → Nat
  | [] => 0
  | b :: rest => b + 256 * leNat rest

/-- Two's-complement signed 32-bit value of 4 little-endian bytes
(`read_sint32`). -/
def sint32OfBytes (bs : List Nat) : Int :=
  let u := leNat (bs.take 4)
  if u < 2 ^ 31 then (u : Int) else (u : Int) - 2 ^ 32

/-- IEEE-754 binary32 value of 4 little-endian bytes (`read_float32`),
as a rational.  Exponent 255 (inf/NaN) is mapped to 0: Python would
yield non-finite floats there, and no claim touches that case. -/
def float32OfBytes (bs : List Nat) : ℚ :=
  let u : Nat := leNat (bs.take 4)
  let sign : ℚ := if u / 2 ^ 31 % 2 = 1 then -1 else 1
  let ex : Nat := u / 2 ^ 23 % 2 ^ 8
  let mant : Nat := u % 2 ^ 23
  if ex = 255 then 0
  else if ex = 0 then sign * (mant : ℚ) / 2 ^ 149
  else sign * ((2 ^ 23 + mant : Nat) : ℚ) * 2 ^ ex / 2 ^ 150

/-- `write_sint32` applied to the sint16s of `read_sint16`: each 2-byte
little-endian value is widened in place to its 4-byte little-endian
two's-complement encoding (sign extension of the high byte). -/
def widen16 : List Nat → List Nat
  | lo :: hi :: rest =>
      lo :: hi :: (if 128 ≤ hi then 255 else 0)
        :: (if 128 ≤ hi then 255 else 0) :: widen16 rest
  | l => l

/-- The VIF command loop of `Pm2Model.from_file` (pm2model.py:179-196):
read 4-byte records `(immediate u16, num u8, command u8)` until MSCNT
(0x17); NOP (0x00) and STCYCL (0x01) are skipped; UNPACK_V4_32 (0x6C)
copies `num*4` uint32 words (16·num bytes) into VU memory verbatim;
UNPACK_V4_16 (0x6D) reads `num*4` sint16s (8·num bytes) and widens them;
any other command is a `ValueError`.  `fuel` bounds the iteration count:
every iteration consumes at least 4 bytes of the stream, so with
`s.length ≤ 4 * fuel` the `fuel = 0` case (empty stream) returns the
same `EOFError` a real iteration would, and `vifLoop_fuel_stable` below
shows the result is independent of any sufficient fuel. -/
def vifLoop : Nat → List Nat → List Nat →
    Except DecodeErr (List Nat × List Nat)
  | 0, _, _ => .error .truncated
  | fuel + 1, s, vu =>
      if s.length < 4 then .error .truncated
      else if s.getD 3 0 = 0x17 then .ok (vu, s.drop 4)
      else if s.getD 3 0 = 0x00 ∨ s.getD 3 0 = 0x01 then
        vifLoop fuel (s.drop 4) vu
      else if s.getD 3 0 = 0x6C then
        if (s.drop 4).length < s.getD 2 0 * 16 then .error .truncated
        else vifLoop fuel ((s.drop 4).drop (s.getD 2 0 * 16))
          (vu ++ (s.drop 4).take (s.getD 2 0 * 16))
      else if s.getD 3 0 = 0x6D then
        if (s.drop 4).length < s.getD 2 0 * 8 then .error .truncated
        else vifLoop fuel ((s.drop 4).drop (s.getD 2 0 * 8))
          (vu ++ widen16 ((s.drop 4).take (s.getD 2 0 * 8)))
      else .error .invalidFormat

/-- The per-vertex loop of `_read_prim` (pm2model.py:264-293): per
vertex, 16 (static) or 24 (animated) 4-byte fields, each read as sint32
or float32, split into position / normal / (deltas) / color / texcoord
and appended through `add_vertex`. -/
def readVertices (isSint animated : Bool) :
    Nat → Prim → List Nat → Prim
  | 0, prim, _ => prim
  | nverts + 1, prim, bytes =>
      let val := fun j : Nat =>
        if isSint then ((sint32OfBytes ((bytes.drop (4 * j)).take 4)) : ℚ)
        else float32OfBytes ((bytes.drop (4 * j)).take 4)
      let prim' :=
        if animated then
          prim.add_vertex_animated
            (val 0, val 1, val 2) (val 4, val 5, val 6)
            (val 16, val 17, val 18, val 19) (val 20, val 21)
            (val 8, val 9, val 10) (val 12, val 13, val 14)
        else
          prim.add_vertex (val 0, val 1, val 2) (val 4, val 5, val 6)
            (val 8, val 9, val 10, val 11) (val 12, val 13)
      readVertices isSint animated nverts prim'
        (bytes.drop (if animated then 96 else 64))

/-- The prim loop over VU memory (pm2model.py:206-210, 233-241): read a
16-byte prim header whose first u32 has the vertex count in bits 0-14
and the last-prim flag in bit 15, then the vertex records, until the
last prim.  Same fuel discipline as `vifLoop`: every iteration consumes
at least 16 bytes. -/
def primsLoop (isSint animated : Bool) :
    Nat → List Nat → Except DecodeErr (List Prim)
  | 0, _ => .error .truncated
  | fuel + 1, vu =>
      if vu.length < 16 then .error .truncated
      else
        if (vu.drop 16).length
            < (if animated then 96 else 64) * (leNat (vu.take 4) % 2 ^ 15)
        then .error .truncated
        else
          if leNat (vu.take 4) / 2 ^ 15 % 2 = 1 then
            .ok [readVertices isSint animated (leNat (vu.take 4) % 2 ^ 15)
              (Prim.empty isSint)
              ((vu.drop 16).take ((if animated then 96 else 64)
                * (leNat (vu.take 4) % 2 ^ 15)))]
          else
            match primsLoop isSint animated fuel
                ((vu.drop 16).drop ((if animated then 96 else 64)
                  * (leNat (vu.take 4) % 2 ^ 15))) with
            | .error e => .error e
            | .ok prims =>
                .ok (readVertices isSint animated (leNat (vu.take 4) % 2 ^ 15)
                  (Prim.empty isSint)
                  ((vu.drop 16).take ((if animated then 96 else 64)
                    * (leNat (vu.take 4) % 2 ^ 15))) :: prims)

/-- `(texture_offset, prims)` of one group. -/
abbrev PrimListData := Nat × List Prim

/-- Parse the VU memory contents into one PrimList
(pm2model.py:198-211, 225-230): a 32-byte group header with
`texture_offset` as the u16 at byte offset 16, then the prim blocks. -/
def parsePrimList (isSint animated : Bool) (vu : List Nat) :
    Except DecodeErr PrimListData :=
  if vu.length < 32 then .error .truncated
  else
    match primsLoop isSint animated vu.length (vu.drop 32) with
    | .error e => .error e
    | .ok prims => .ok (leNat ((vu.drop 16).take 2), prims)

/-- The group loop of `Pm2Model.from_file` (pm2model.py:176-211). -/
def groupsLoop (isSint animated : Bool) :
    Nat → List Nat → Except DecodeErr (List PrimListData × List Nat)
  | 0, s => .ok ([], s)
  | n + 1, s =>
      match vifLoop s.length s [] with
      | .error e => .error e
      | .ok (vu, s') =>
          match parsePrimList isSint animated vu with
          | .error e => .error e
          | .ok pl =>
              match groupsLoop isSint animated n s' with
              | .error e => .error e
              | .ok (pls, s'') => .ok (pl :: pls, s'')

/-- A decoded pm2 model. -/
structure Pm2Model where
  primlists : List PrimListData
  animated : Bool
deriving DecidableEq

/-- `Pm2Model.from_file` (pm2model.py:158-213) over an in-memory byte
stream: a 16-byte header `(magic "PM2", type u8, two ignored u32 fields,
primlist count u32)`; the type byte must be one of 0x12 (FLOAT32), 0x13
(FLOAT32_ANIM), 0x32 (SINT32), 0x33 (SINT32_ANIM) and fixes `animated`
and the numeric representation; then the group loop. -/
def pm2_from_bytes (bs : List Nat) : Except DecodeErr Pm2Model :=
  if bs.length < 16 then .error .truncated
  else if ¬ bs.take 3 = [0x50, 0x4D, 0x32] then .error .invalidFormat
  else if ¬ (bs.getD 3 0 = 0x12 ∨ bs.getD 3 0 = 0x13 ∨ bs.getD 3 0 = 0x32
      ∨ bs.getD 3 0 = 0x33) then .error .invalidFormat
  else
    match groupsLoop (bs.getD 3 0 == 0x32 || bs.getD 3 0 == 0x33)
        (bs.getD 3 0 == 0x13 || bs.getD 3 0 == 0x33)
        (leNat ((bs.drop 12).take 4)) (bs.drop 16) with
    | .error e => .error e
    | .ok (pls, _) =>
        .ok ⟨pls, bs.getD 3 0 == 0x13 || bs.getD 3 0 == 0x33⟩

-- ## Theorems for C8 (simplify) -----------------------------------------

theorem simplifyGo_sublist (p : Option ℚ) (t : Timeline) :
    (simplifyGo p t).Sublist t := by
  induction t generalizing p with
  | nil => simp [simplifyGo]
  | cons x rest ih =>
      rw [simplifyGo]
      split
      · exact (ih (some x.2)).cons₂ x
      · exact (ih (some x.2)).cons x

theorem simplifyGo_head (p : Option ℚ) (t : Timeline) (x : Nat × ℚ)
    (h : (simplifyGo p t).head? = some x) : some x.2 ≠ p := by
  induction t generalizing p with
  | nil => simp [simplifyGo] at h
  | cons y rest ih =>
      rw [simplifyGo] at h
      split at h
      · simp at h
        subst h
        assumption
      · rename_i hne
        have hp : some y.2 = p := by simpa using hne
        rw [← hp]
        exact ih (some y.2) h

theorem simplifyGo_idem (p : Option ℚ) (t : Timeline) :
    simplifyGo p (simplifyGo p t) = simplifyGo p t := by
  induction t generalizing p with
  | nil => simp [simplifyGo]
  | cons x rest ih =>
      rw [simplifyGo]
      split
      · rw [simplifyGo]
        rename_i hne
        rw [if_pos hne, ih (some x.2)]
      · rename_i heq
        have hp : some x.2 = p := by simpa using heq
        rw [← hp]
        exact ih (some x.2)

theorem simplifyGo_chain' (p : Option ℚ) (t : Timeline) :
    (simplifyGo p t).Chain' (fun a b => a.2 ≠ b.2) := by
  induction t generalizing p with
  | nil => simp [simplifyGo]
  | cons x rest ih =>
      rw [simplifyGo]
      split
      · rw [List.chain'_cons']
        refine ⟨?_, ih (some x.2)⟩
        intro b hb
        have := simplifyGo_head (some x.2) rest b hb
        simpa [eq_comm] using this
      · exact ih (some x.2)

theorem simplifyGo_dropSpec (pv : ℚ) (l : Timeline) :
    simplifyGo (some pv) l
      = (l.zip (pv :: l.map Prod.snd)).filterMap
          (fun p => if p.1.2 = p.2 then none else some p.1) := by
  induction l generalizing pv with
  | nil => simp [simplifyGo]
  | cons y rest ih =>
      rw [simplifyGo]
      simp only [List.zip_cons_cons, List.filterMap_cons]
      split
      · rename_i hne
        have : ¬ y.2 = pv := by simpa [eq_comm] using hne
        simp only [if_neg this]
        rw [ih y.2, List.map_cons]
      · rename_i heq
        have hv : y.2 = pv := by
          by_contra hc
          exact heq (by simpa [eq_comm] using hc)
        simp only [if_pos hv]
        rw [ih y.2, List.map_cons, hv]

/-- C8: `simplify` drops exactly the samples whose value equals the
immediately preceding sample's value, always keeps the first sample,
never reorders frames (the output is a sublist of the input), is
idempotent, and leaves no two adjacent samples sharing a value. -/
theorem simplify_scalehide_timeline_spec (t : Timeline) :
    simplify_scalehide_timeline (simplify_scalehide_timeline t)
        = simplify_scalehide_timeline t
    ∧ (simplify_scalehide_timeline t).head? = t.head?
    ∧ (simplify_scalehide_timeline t).Sublist t
    ∧ simplify_scalehide_timeline t = simplifyDropSpec t
    ∧ (simplify_scalehide_timeline t).Chain' (fun a b => a.2 ≠ b.2) := by
  refine ⟨?_, ?_, ?_, ?_, ?_⟩
  · unfold simplify_scalehide_timeline
    exact simplifyGo_idem none t
  · unfold simplify_scalehide_timeline
    cases t with
    | nil => simp [simplifyGo]
    | cons x rest => simp [simplifyGo]
  · exact simplifyGo_sublist none t
  · unfold simplify_scalehide_timeline simplifyDropSpec
    cases t with
    | nil => simp [simplifyGo]
    | cons x rest =>
        rw [simplifyGo]
        rw [if_pos (by simp)]
        rw [simplifyGo_dropSpec x.2 rest]
        simp
  · exact simplifyGo_chain' none t

-- ## Theorems for C9 (invert) -------------------------------------------

/-- C9: `invert` leaves the frames (and their order) unchanged, swaps the
sample values 1 and 0 pointwise, and applying it twice reproduces the
original timeline, for timelines whose values satisfy the visibility
invariant (every value is 0 or 1). -/
theorem invert_scalehide_timeline_spec (t : Timeline)
    (h : ∀ p ∈ t, p.2 = 0 ∨ p.2 = 1) :
    (invert_scalehide_timeline t).map Prod.fst = t.map Prod.fst
    ∧ (invert_scalehide_timeline t).length = t.length
    ∧ (∀ i, i < t.length →
        (invert_scalehide_timeline t).getD i (0, 0)
          = ((t.getD i (0, 0)).1, if (t.getD i (0, 0)).2 = 1 then 0 else 1))
    ∧ invert_scalehide_timeline (invert_scalehide_timeline t) = t := by
  refine ⟨?_, ?_, ?_, ?_⟩
  · simp [invert_scalehide_timeline]
  · simp [invert_scalehide_timeline]
  · intro i hi
    induction t generalizing i with
    | nil => simp at hi
    | cons x rest ih =>
        cases i with
        | zero =>
            have hx := h x (by simp)
            rcases hx with hx | hx <;>
              simp [invert_scalehide_timeline, hx]
        | succ j =>
            have hrest : ∀ p ∈ rest, p.2 = 0 ∨ p.2 = 1 := by
              intro p hp
              exact h p (by simp [hp])
            have hj : j < rest.length := by simpa using hi
            have := ih hrest j hj
            simpa [invert_scalehide_timeline] using this
  · induction t with
    | nil => simp [invert_scalehide_timeline]
    | cons x rest ih =>
        obtain ⟨f, v⟩ := x
        have hx : v = 0 ∨ v = 1 := by simpa using h (f, v) (by simp)
        have hrest : ∀ p ∈ rest, p.2 = 0 ∨ p.2 = 1 := by
          intro p hp
          exact h p (by simp [hp])
        have htail := ih hrest
        simp only [invert_scalehide_timeline, List.map_cons] at htail ⊢
        rcases hx with hx | hx <;> subst hx <;> norm_num <;>
          simpa [List.map_map] using htail

/-- Witness for C9 at the concrete timeline `[(0,1),(3,0)]`. -/
theorem invert_scalehide_timeline_spec_witness :
    invert_scalehide_timeline (invert_scalehide_timeline [(0, 1), (3, 0)])
      = ([(0, 1), (3, 0)] : Timeline) :=
  (invert_scalehide_timeline_spec [(0, 1), (3, 0)] (by decide)).2.2.2

-- ## Helper lemmas for C7 (union) ---------------------------------------

theorem getD_set_eq (l : List ℚ) (j : Nat) (v : ℚ) (hj : j < l.length) :
    (l.set j v).getD j 0 = v := by
  induction l generalizing j with
  | nil => simp at hj
  | cons x xs ih =>
      cases j with
      | zero => simp
      | succ k => simpa using ih k (by simpa using hj)

theorem getD_set_neq (l : List ℚ) (j i : Nat) (v : ℚ) (h : j ≠ i) :
    (l.set j v).getD i 0 = l.getD i 0 := by
  induction l generalizing i j with
  | nil => simp
  | cons x xs ih =>
      cases j with
      | zero =>
          cases i with
          | zero => exact absurd rfl h
          | succ k => simp
      | succ m =>
          cases i with
          | zero => simp
          | succ k => simpa using ih m k (by omega)

theorem setAll_length (es : List (Nat × ℚ)) (cur : List ℚ) :
    (setAll cur es).length = cur.length := by
  induction es generalizing cur with
  | nil => rfl
  | cons p rest ih =>
      show (setAll (cur.set p.1 p.2) rest).length = cur.length
      rw [ih]
      exact List.length_set ..

theorem setAll_getD (es : List (Nat × ℚ)) (cur : List ℚ) (i : Nat)
    (hes : ∀ q ∈ es, q.1 < cur.length) :
    (setAll cur es).getD i 0
      = (((es.filter fun q => q.1 = i).getLast?).map Prod.snd).getD
          (cur.getD i 0) := by
  induction es generalizing cur with
  | nil => simp [setAll]
  | cons p rest ih =>
      have hp : p.1 < cur.length := hes p (by simp)
      have hrest : ∀ q ∈ rest, q.1 < (cur.set p.1 p.2).length := by
        intro q hq
        rw [List.length_set]
        exact hes q (by simp [hq])
      have step : setAll cur (p :: rest) = setAll (cur.set p.1 p.2) rest := rfl
      rw [step, ih (cur.set p.1 p.2) hrest]
      by_cases hpi : p.1 = i
      · subst hpi
        rw [List.filter_cons_of_pos (by simp)]
        cases hfr : rest.filter fun q => q.1 = p.1 with
        | nil =>
            show (cur.set p.1 p.2).getD p.1 0 = p.2
            exact getD_set_eq cur p.1 p.2 hp
        | cons y ys =>
            rw [List.getLast?_cons_cons]
            rfl
      · rw [List.filter_cons_of_neg (by simpa using hpi)]
        rw [getD_set_neq cur p.1 i p.2 hpi]

theorem filterMap_tag (t : Timeline) (i f : Nat) :
    (t.filterMap fun p => if p.1 = f then some (i, p.2) else none)
      = (t.filter fun p => p.1 = f).map fun p => (i, p.2) := by
  induction t with
  | nil => rfl
  | cons x rest ih =>
      by_cases hx : x.1 = f
      · rw [List.filterMap_cons, List.filter_cons_of_pos (by simpa using hx)]
        simp only [if_pos hx, List.map_cons, ih]
      · rw [List.filterMap_cons, List.filter_cons_of_neg (by simpa using hx)]
        simp only [if_neg hx, ih]

theorem entriesAtFrom_mem_bounds (ts : List Timeline) (i0 f : Nat) :
    ∀ q ∈ entriesAtFrom i0 ts f, i0 ≤ q.1 ∧ q.1 < i0 + ts.length := by
  induction ts generalizing i0 with
  | nil => simp [entriesAtFrom]
  | cons t rest ih =>
      intro q hq
      rw [entriesAtFrom, List.mem_append] at hq
      rcases hq with hq | hq
      · rw [filterMap_tag, List.mem_map] at hq
        obtain ⟨p, _, rfl⟩ := hq
        simp
      · have := ih (i0 + 1) q hq
        constructor
        · omega
        · simp only [List.length_cons]
          omega

theorem entriesAtFrom_filter (ts : List Timeline) (f j : Nat) :
    ∀ i0, i0 ≤ j →
      (entriesAtFrom i0 ts f).filter (fun q => q.1 = j)
        = ((ts.getD (j - i0) []).filter fun p => p.1 = f).map
            fun p => (j, p.2) := by
  induction ts with
  | nil =>
      intro i0 _
      simp [entriesAtFrom]
  | cons t rest ih =>
      intro i0 hj
      rw [entriesAtFrom, List.filter_append, filterMap_tag]
      by_cases hij : i0 = j
      · have h1 : ((t.filter fun p => p.1 = f).map fun p => (i0, p.2)).filter
            (fun q => q.1 = j)
            = (t.filter fun p => p.1 = f).map fun p => (j, p.2) := by
          rw [hij]
          apply List.filter_eq_self.mpr
          intro q hq
          rw [List.mem_map] at hq
          obtain ⟨p, _, rfl⟩ := hq
          simp
        have h2 : (entriesAtFrom (i0 + 1) rest f).filter
            (fun q => q.1 = j) = [] := by
          apply List.filter_eq_nil_iff.mpr
          intro q hq
          have hb := entriesAtFrom_mem_bounds rest (i0 + 1) f q hq
          simp only [decide_eq_true_eq]
          omega
        have h0 : (t :: rest).getD (j - i0) [] = t := by
          have hz : j - i0 = 0 := by omega
          rw [hz]
          rfl
        rw [h1, h2, List.append_nil, h0]
      · have h1 : ((t.filter fun p => p.1 = f).map fun p => (i0, p.2)).filter
            (fun q => q.1 = j) = [] := by
          apply List.filter_eq_nil_iff.mpr
          intro q hq
          rw [List.mem_map] at hq
          obtain ⟨p, _, rfl⟩ := hq
          simpa using hij
        rw [h1, List.nil_append, ih (i0 + 1) (by omega)]
        have hsub : j - i0 = (j - (i0 + 1)) + 1 := by omega
        rw [hsub]
        rfl

theorem entriesAt_eq_nil_iff (ts : List Timeline) (f : Nat) :
    entriesAt ts f = [] ↔ (ts.any fun t => hasSampleAt t f) = false := by
  unfold entriesAt
  generalize 0 = i0
  induction ts generalizing i0 with
  | nil => simp [entriesAtFrom]
  | cons t rest ih =>
      rw [entriesAtFrom, List.append_eq_nil, filterMap_tag]
      simp only [List.any_cons, Bool.or_eq_false_iff]
      constructor
      · rintro ⟨h1, h2⟩
        refine ⟨?_, (ih (i0 + 1)).mp h2⟩
        rw [List.map_eq_nil_iff, List.filter_eq_nil_iff] at h1
        unfold hasSampleAt
        rw [Bool.eq_false_iff, Ne, List.any_eq_true]
        rintro ⟨p, hp, hpf⟩
        exact h1 p hp (by simpa using hpf)
      · rintro ⟨h1, h2⟩
        refine ⟨?_, (ih (i0 + 1)).mpr h2⟩
        rw [List.map_eq_nil_iff, List.filter_eq_nil_iff]
        intro p hp
        unfold hasSampleAt at h1
        rw [Bool.eq_false_iff, Ne, List.any_eq_true] at h1
        intro hpf
        exact h1 ⟨p, hp, hpf⟩

theorem hasSampleAt_false_filter (t : Timeline) (a : Nat)
    (h : hasSampleAt t a = false) : t.filter (fun p => p.1 = a) = [] := by
  unfold hasSampleAt at h
  rw [Bool.eq_false_iff, Ne, List.any_eq_true] at h
  apply List.filter_eq_nil_iff.mpr
  intro p hp
  simp only [decide_eq_true_eq]
  intro hpa
  exact h ⟨p, hp, by simpa using hpa⟩

theorem sorted_filter_at :
    ∀ (t : Timeline), TimelineSorted t → ∀ (a : Nat),
      t.filter (fun p => p.1 = a) = []
        ∨ ∃ v, t.filter (fun p => p.1 = a) = [(a, v)] ∧ (a, v) ∈ t := by
  intro t
  induction t with
  | nil =>
      intro _ a
      left
      rfl
  | cons x rest ih =>
      intro hs a
      obtain ⟨xf, xv⟩ := x
      rw [TimelineSorted, List.pairwise_cons] at hs
      obtain ⟨hbound, hrest⟩ := hs
      by_cases hx : xf = a
      · subst hx
        right
        have hfr : rest.filter (fun p => p.1 = xf) = [] := by
          apply List.filter_eq_nil_iff.mpr
          intro q hq
          have := hbound q hq
          simp only [decide_eq_true_eq]
          omega
        exact ⟨xv, by rw [List.filter_cons_of_pos (by simp), hfr], by simp⟩
      · rcases ih hrest a with h | ⟨v, hv, hmem⟩
        · left
          rw [List.filter_cons_of_neg (by simpa using hx), h]
        · right
          refine ⟨v, ?_, by simp [hmem]⟩
          rw [List.filter_cons_of_neg (by simpa using hx), hv]

theorem currentValBefore_succ_of_none (t : Timeline) (a : Nat)
    (h : t.filter (fun p => p.1 = a) = []) :
    currentValBefore t (a + 1) = currentValBefore t a := by
  unfold currentValBefore
  have hf : t.filter (fun p => p.1 < a + 1) = t.filter (fun p => p.1 < a) := by
    apply List.filter_congr
    intro p hp
    have hpa : ¬ p.1 = a := by
      rw [List.filter_eq_nil_iff] at h
      intro he
      exact h p hp (by simpa using he)
    rw [decide_eq_decide]
    omega
  rw [hf]

theorem currentValBefore_succ_of_mem :
    ∀ (t : Timeline), TimelineSorted t → ∀ (a : Nat) (v : ℚ),
      (a, v) ∈ t → currentValBefore t (a + 1) = v := by
  intro t
  induction t with
  | nil =>
      intro _ a v hmem
      simp at hmem
  | cons x rest ih =>
      intro hs a v hmem
      obtain ⟨xf, xv⟩ := x
      rw [TimelineSorted, List.pairwise_cons] at hs
      obtain ⟨hbound, hrest⟩ := hs
      rcases List.mem_cons.mp hmem with hhead | htail
      · obtain ⟨hf, hv⟩ : xf = a ∧ xv = v := by
          have := hhead.symm
          exact ⟨congrArg Prod.fst this, congrArg Prod.snd this⟩
        subst hf
        subst hv
        have hfr : rest.filter (fun p => p.1 < xf + 1) = [] := by
          apply List.filter_eq_nil_iff.mpr
          intro q hq
          have := hbound q hq
          simp only [decide_eq_true_eq]
          omega
        unfold currentValBefore
        rw [List.filter_cons_of_pos (by simp), hfr]
        rfl
      · have hxa : xf < a := by simpa using hbound (a, v) htail
        have hne : rest.filter (fun p => p.1 < a + 1) ≠ [] := by
          intro hnil
          rw [List.filter_eq_nil_iff] at hnil
          exact hnil (a, v) htail (by simp)
        obtain ⟨y, ys, hys⟩ := List.exists_cons_of_ne_nil hne
        have ihv := ih hrest a v htail
        unfold currentValBefore at ihv ⊢
        rw [List.filter_cons_of_pos (by simp only [decide_eq_true_eq]; omega),
          hys, List.getLast?_cons_cons]
        rw [hys] at ihv
        exact ihv

theorem le_tlFold (t : Timeline) (m : Nat) :
    m ≤ t.foldl (fun m' p => max m' p.1) m := by
  induction t generalizing m with
  | nil => simp
  | cons x xs ih =>
      have h1 : m ≤ max m x.1 := Nat.le_max_left ..
      exact h1.trans (ih (max m x.1))

theorem mem_le_tlFold (t : Timeline) (m : Nat) (p : Nat × ℚ) (hp : p ∈ t) :
    p.1 ≤ t.foldl (fun m' p => max m' p.1) m := by
  induction t generalizing m with
  | nil => simp at hp
  | cons x xs ih =>
      rcases List.mem_cons.mp hp with h | h
      · subst h
        exact (Nat.le_max_right m p.1).trans (le_tlFold xs (max m p.1))
      · exact ih (max m x.1) h

theorem le_lkFold (ts : List Timeline) (m : Nat) :
    m ≤ ts.foldl (fun m t => t.foldl (fun m' p => max m' p.1) m) m := by
  induction ts generalizing m with
  | nil => simp
  | cons t rest ih =>
      exact (le_tlFold t m).trans (ih _)

theorem mem_le_lastKeyframe (ts : List Timeline) (t : Timeline) (ht : t ∈ ts)
    (p : Nat × ℚ) (hp : p ∈ t) : p.1 ≤ lastKeyframe ts := by
  unfold lastKeyframe
  generalize 0 = m
  induction ts generalizing m with
  | nil => simp at ht
  | cons u rest ih =>
      rcases List.mem_cons.mp ht with h | h
      · subst h
        exact (mem_le_tlFold t m p hp).trans (le_lkFold rest _)
      · exact ih h _

theorem getD_mem (l : List Timeline) (i : Nat) (h : i < l.length) :
    l.getD i [] ∈ l := by
  induction l generalizing i with
  | nil => simp at h
  | cons x xs ih =>
      cases i with
      | zero => simp
      | succ j =>
          have := ih j (by simpa using h)
          simp only [List.getD_cons_succ]
          exact List.mem_cons_of_mem x this

theorem getD_map_cva (l : List Timeline) (a i : Nat) (h : i < l.length) :
    (l.map fun t => currentValAt t a).getD i 0
      = currentValAt (l.getD i []) a := by
  induction l generalizing i with
  | nil => simp at h
  | cons x xs ih =>
      cases i with
      | zero => rfl
      | succ j => exact ih j (by simpa using h)

theorem getD_replicate_one (n i : Nat) (h : i < n) :
    (List.replicate n (1 : ℚ)).getD i 0 = 1 := by
  induction n generalizing i with
  | zero => omega
  | succ m ih =>
      cases i with
      | zero => rfl
      | succ j => exact ih j (by omega)

theorem list_ext_getD (l₁ l₂ : List ℚ) (hlen : l₁.length = l₂.length)
    (h : ∀ i, i < l₁.length → l₁.getD i 0 = l₂.getD i 0) : l₁ = l₂ := by
  induction l₁ generalizing l₂ with
  | nil =>
      cases l₂ with
      | nil => rfl
      | cons y ys => simp at hlen
  | cons x xs ih =>
      cases l₂ with
      | nil => simp at hlen
      | cons y ys =>
          have h0 := h 0 (by simp)
          simp only [List.getD_cons_zero] at h0
          subst h0
          have : xs = ys := by
            apply ih ys (by simpa using hlen)
            intro i hi
            have := h (i + 1) (by simpa using hi)
            simpa using this
          rw [this]

theorem currentValBefore_zero (t : Timeline) : currentValBefore t 0 = 1 := by
  unfold currentValBefore
  have : t.filter (fun p => p.1 < 0) = [] := by
    apply List.filter_eq_nil_iff.mpr
    intro p _
    simp
  rw [this]
  rfl

/-- The imperative frame sweep of `sum_scalehide_timelines` computes, at
each distinct sample frame, the max over the inputs' current values. -/
theorem sweepLoop_spec (padded : List Timeline)
    (hsorted : ∀ t ∈ padded, TimelineSorted t) :
    ∀ (n a : Nat) (cur : List ℚ) (acc : Timeline),
      cur.length = padded.length →
      (∀ i, i < padded.length →
        cur.getD i 0 = currentValBefore (padded.getD i []) a) →
      sweepLoop padded cur acc (List.range' a n)
        = acc ++ (List.range' a n).filterMap (fun f =>
            if padded.any (fun t => hasSampleAt t f) then
              some (f, listMax (padded.map fun t => currentValAt t f))
            else none) := by
  intro n
  induction n with
  | zero =>
      intro a cur acc _ _
      simp [sweepLoop]
  | succ m ih =>
      intro a cur acc hlen hinv
      rw [List.range'_succ, sweepLoop, List.filterMap_cons]
      by_cases he : (entriesAt padded a).isEmpty = true
      · have hnil : entriesAt padded a = [] := by
          rwa [List.isEmpty_iff] at he
        have hany : (padded.any fun t => hasSampleAt t a) = false :=
          (entriesAt_eq_nil_iff padded a).mp hnil
        have hinv' : ∀ i, i < padded.length →
            cur.getD i 0 = currentValBefore (padded.getD i []) (a + 1) := by
          intro i hi
          have hti : hasSampleAt (padded.getD i []) a = false := by
            rw [List.any_eq_false] at hany
            exact Bool.eq_false_iff.mpr (by
              intro htrue
              exact hany (padded.getD i []) (getD_mem padded i hi) htrue)
          rw [hinv i hi,
            currentValBefore_succ_of_none (padded.getD i []) a
              (hasSampleAt_false_filter _ a hti)]
        simp only [he, if_true, hany, Bool.false_eq_true, if_false]
        exact ih (a + 1) cur acc hlen hinv'
      · have hne : entriesAt padded a ≠ [] := by
          intro hnil
          exact he (by rw [hnil]; rfl)
        have hany : (padded.any fun t => hasSampleAt t a) = true := by
          by_contra hc
          exact hne ((entriesAt_eq_nil_iff padded a).mpr
            (Bool.eq_false_iff.mpr hc))
        have hbound : ∀ q ∈ entriesAt padded a, q.1 < cur.length := by
          intro q hq
          have := entriesAtFrom_mem_bounds padded 0 a q hq
          omega
        have hcur' : ∀ i, i < padded.length →
            (setAll cur (entriesAt padded a)).getD i 0
              = currentValAt (padded.getD i []) a := by
          intro i hi
          rw [setAll_getD _ _ _ hbound]
          have hfe := entriesAtFrom_filter padded a i 0 (Nat.zero_le i)
          rw [Nat.sub_zero] at hfe
          show ((((entriesAtFrom 0 padded a).filter
              fun q => q.1 = i).getLast?).map Prod.snd).getD (cur.getD i 0)
            = currentValAt (padded.getD i []) a
          rw [hfe]
          have hts : TimelineSorted (padded.getD i []) :=
            hsorted (padded.getD i []) (getD_mem padded i hi)
          rcases sorted_filter_at (padded.getD i []) hts a with
            hni | ⟨v, hone, hmemv⟩
          · rw [hni]
            show cur.getD i 0 = currentValAt (padded.getD i []) a
            rw [hinv i hi]
            exact (currentValBefore_succ_of_none (padded.getD i []) a hni).symm
          · rw [hone]
            show v = currentValAt (padded.getD i []) a
            exact (currentValBefore_succ_of_mem (padded.getD i []) hts
              a v hmemv).symm
        have hlen' : (setAll cur (entriesAt padded a)).length = padded.length := by
          rw [setAll_length]
          exact hlen
        have hcureq : setAll cur (entriesAt padded a)
            = padded.map fun t => currentValAt t a := by
          apply list_ext_getD
          · rw [hlen']
            simp
          · intro i hi
            rw [hlen'] at hi
            rw [hcur' i hi, getD_map_cva padded a i hi]
        simp only [he, if_false, hany, if_true]
        rw [ih (a + 1) (setAll cur (entriesAt padded a))
          (acc ++ [(a, listMax (setAll cur (entriesAt padded a)))]) hlen'
          (fun i hi => hcur' i hi), hcureq, List.append_assoc]
        rfl

/-- C7: `sum_scalehide_timelines` returns `[]` when every input is empty,
returns the single nonempty input unchanged, and on two or more nonempty
well-formed inputs equals the claim's sweep: pad each input at frame 0
with its first value, then emit at each distinct sample frame (in
increasing order) the max over all inputs' current values, each current
value being initialized to 1. -/
theorem sum_scalehide_timelines_spec (ts : List Timeline)
    (hsorted : ∀ t ∈ ts, TimelineSorted t) :
    (ts.filter (fun t => !t.isEmpty) = [] → sum_scalehide_timelines ts = [])
    ∧ (∀ t, ts.filter (fun t => !t.isEmpty) = [t]
        → sum_scalehide_timelines ts = t)
    ∧ (2 ≤ (ts.filter (fun t => !t.isEmpty)).length →
        sum_scalehide_timelines ts
          = unionSweepSpec (ts.filter (fun t => !t.isEmpty))) := by
  refine ⟨?_, ?_, ?_⟩
  · intro h
    unfold sum_scalehide_timelines
    rw [h]
  · intro t h
    unfold sum_scalehide_timelines
    rw [h]
  · intro h2
    have hsorted' : ∀ t ∈ ts.filter (fun t => !t.isEmpty), TimelineSorted t := by
      intro t ht
      exact hsorted t (List.mem_of_mem_filter ht)
    match hf : ts.filter (fun t => !t.isEmpty) with
    | [] => rw [hf] at h2; simp at h2
    | [t] => rw [hf] at h2; simp at h2
    | a :: b :: rest =>
        rw [hf] at hsorted'
        unfold sum_scalehide_timelines
        rw [hf]
        have hps : ∀ t ∈ (a :: b :: rest).map padZero, TimelineSorted t := by
          intro t ht
          rw [List.mem_map] at ht
          obtain ⟨u, hu, rfl⟩ := ht
          have hu' := hsorted' u hu
          cases u with
          | nil => exact List.Pairwise.nil
          | cons x urest =>
              obtain ⟨xf, xv⟩ := x
              show TimelineSorted
                (if 0 < xf then (0, xv) :: (xf, xv) :: urest
                 else (xf, xv) :: urest)
              by_cases hxf : 0 < xf
              · rw [if_pos hxf]
                rw [TimelineSorted, List.pairwise_cons]
                refine ⟨?_, hu'⟩
                intro q hq
                rw [TimelineSorted, List.pairwise_cons] at hu'
                rcases List.mem_cons.mp hq with hq | hq
                · rw [hq]
                  exact hxf
                · exact Nat.lt_trans hxf (hu'.1 q hq)
              · rw [if_neg hxf]
                exact hu'
        have hspec := sweepLoop_spec ((a :: b :: rest).map padZero) hps
          (lastKeyframe ((a :: b :: rest).map padZero) + 1) 0
          (List.replicate ((a :: b :: rest).map padZero).length 1) []
          (by simp)
          (by
            intro i hi
            rw [getD_replicate_one _ i (by simpa using hi),
              currentValBefore_zero])
        rw [← List.range_eq_range'] at hspec
        show sweepLoop ((a :: b :: rest).map padZero)
            (List.replicate ((a :: b :: rest).map padZero).length 1) []
            (List.range (lastKeyframe ((a :: b :: rest).map padZero) + 1))
          = unionSweepSpec (a :: b :: rest)
        rw [hspec]
        rfl

-- ## C1: default-visibility resolution ----------------------------------

/-- C1 counterexample: under `1LONG`, for a default timeline `[(5,1)]`
and one overriding timeline `[(0,1)]`, the compiler's resolved default
timeline is not `simplify(union([default_own,
invert(union(overrides))]))` — the code first prepends a `(0,0)` sample
to the default timeline. -/
theorem calc_default_scalehide_counterexample :
    calc_default_scalehide_timeline .oneLong [(5, 1)] [[(0, 1)]]
      ≠ simplify_scalehide_timeline
          (sum_scalehide_timelines
            [[(5, 1)],
              invert_scalehide_timeline
                (sum_scalehide_timelines [[(0, 1)]])]) := by
  decide

/-- C1 amended: the compiler resolves the default timeline to
`simplify(union([D, invert(union(overrides))]))` where `D` is the
default submodel's own timeline, except that under `1LONG` or
`1LONG_EVERY100`, when that timeline is nonempty and does not start at
frame 0, a `(0,0)` sample is prepended to it first.  In particular a
joint with a default submodel (with no pre-existing visibility samples)
and one override with visibility `[(0,1)]` resolves the default timeline
to `[(0,0)]` (always hidden). -/
theorem calc_default_scalehide_amended :
    (∀ (method : AnimMethod) (d : Timeline) (os : List Timeline),
      (method = .driver ∨ method = .separateArmatures
          ∨ d = [] ∨ (d.headD (0, 0)).1 = 0) →
      calc_default_scalehide_timeline method d os
        = simplify_scalehide_timeline
            (sum_scalehide_timelines
              [d, invert_scalehide_timeline (sum_scalehide_timelines os)]))
    ∧ (∀ (method : AnimMethod) (d : Timeline) (os : List Timeline),
        (method = .oneLong ∨ method = .oneLongEvery100) → d ≠ [] →
        (d.headD (0, 0)).1 ≠ 0 →
        calc_default_scalehide_timeline method d os
          = simplify_scalehide_timeline
              (sum_scalehide_timelines
                [(0, 0) :: d,
                  invert_scalehide_timeline (sum_scalehide_timelines os)]))
    ∧ calc_default_scalehide_timeline .oneLong [] [[(0, 1)]] = [(0, 0)] := by
  refine ⟨?_, ?_, by decide⟩
  · intro method d os h
    unfold calc_default_scalehide_timeline
    have hcond : ¬ ((method = .oneLong ∨ method = .oneLongEvery100)
        ∧ d ≠ [] ∧ (d.headD (0, 0)).1 ≠ 0) := by
      rcases h with h | h | h | h
      · subst h
        rintro ⟨hm | hm, -, -⟩ <;> exact AnimMethod.noConfusion hm
      · subst h
        rintro ⟨hm | hm, -, -⟩ <;> exact AnimMethod.noConfusion hm
      · exact fun hc => hc.2.1 h
      · exact fun hc => hc.2.2 h
    rw [if_neg hcond]
  · intro method d os hm hne hhead
    unfold calc_default_scalehide_timeline
    rw [if_pos ⟨hm, hne, hhead⟩]

/-- Witness for the C1 amended theorem under `DRIVER` mode. -/
theorem calc_default_scalehide_amended_witness :
    calc_default_scalehide_timeline .driver [(5, 1)] [[(0, 1)]]
      = simplify_scalehide_timeline
          (sum_scalehide_timelines
            [[(5, 1)],
              invert_scalehide_timeline
                (sum_scalehide_timelines [[(0, 1)]])]) :=
  calc_default_scalehide_amended.1 .driver [(5, 1)] [[(0, 1)]]
    (Or.inl rfl)

/-- Witness for C7: two concrete sorted timelines. -/
theorem sum_scalehide_timelines_spec_witness :
    (∀ t ∈ ([[(0, 1), (2, 0)], [(1, 1)]] : List Timeline), TimelineSorted t)
    ∧ sum_scalehide_timelines [[(0, 1), (2, 0)], [(1, 1)]]
        = unionSweepSpec (([[(0, 1), (2, 0)], [(1, 1)]] :
            List Timeline).filter (fun t => !t.isEmpty)) :=
  ⟨by decide,
    (sum_scalehide_timelines_spec [[(0, 1), (2, 0)], [(1, 1)]]
      (by decide)).2.2 (by decide)⟩

-- ## Theorems for C4 (triangulation) ------------------------------------

theorem meshFaces_split (pre : List Nat) :
    ∀ (off n : Nat) (post : List Nat),
      meshFaces off (pre ++ n :: post)
        = meshFaces off pre ++ trisForPrim (off + pre.sum) n
            ++ meshFaces (off + pre.sum + n) post := by
  induction pre with
  | nil =>
      intro off n post
      simp [meshFaces]
  | cons m ms ih =>
      intro off n post
      show trisForPrim off m ++ meshFaces (off + m) (ms ++ n :: post) = _
      rw [ih (off + m) n post]
      simp only [meshFaces, List.sum_cons, List.append_assoc, Nat.add_assoc]

/-- C4: a prim of `n ≥ 3` vertices starting at mesh vertex `off`
contributes exactly `n - 2` triangles, the `i`-th covering the
consecutive strip triple `(off+i, off+i+1, off+i+2)`, with the winding of
even-numbered triangles reversed relative to the strip order and
odd-numbered triangles kept in strip order (so consecutive triangles have
opposite winding); a 4-vertex prim yields exactly the two triangles
`revWinding (stripTri off 0)` and `stripTri off 1`; and each prim's
triangles appear contiguously in the whole-mesh face list at the running
vertex offset. -/
theorem trisForPrim_spec (off n : Nat) (h : 3 ≤ n) :
    (trisForPrim off n).length = n - 2
    ∧ (∀ i, i < n - 2 →
        (trisForPrim off n).getD i (0, 0, 0)
          = if i % 2 = 0 then revWinding (stripTri off i) else stripTri off i)
    ∧ trisForPrim off 4 = [revWinding (stripTri off 0), stripTri off 1]
    ∧ (∀ (pre post : List Nat) (start : Nat),
        meshFaces start (pre ++ n :: post)
          = meshFaces start pre ++ trisForPrim (start + pre.sum) n
              ++ meshFaces (start + pre.sum + n) post) := by
  refine ⟨by simp [trisForPrim], ?_, ?_, ?_⟩
  · intro i hi
    unfold trisForPrim
    rw [List.getD_eq_getElem?_getD, List.getElem?_map,
      List.getElem?_range hi]
    by_cases hpar : i % 2 = 0
    · simp [hpar, revWinding, stripTri]
    · simp [hpar, stripTri]
  · show (List.range 2).map _ = _
    rfl
  · intro pre post start
    exact meshFaces_split pre start n post

/-- Witness for C4 at `n = 5`, `off = 7`. -/
theorem trisForPrim_spec_witness :
    (trisForPrim 7 5).length = 3
    ∧ (trisForPrim 7 5).getD 1 (0, 0, 0) = stripTri 7 1 :=
  ⟨(trisForPrim_spec 7 5 (by decide)).1,
    ((trisForPrim_spec 7 5 (by decide)).2.1 1 (by decide)).trans (by decide)⟩

-- ## Theorems for C5 (clip scheduling) ----------------------------------

theorem foldl_max_shift (l : List Nat) :
    ∀ m : Nat, l.foldl max m = max m (l.foldl max 0) := by
  induction l with
  | nil => intro m; simp
  | cons x xs ih =>
      intro m
      show xs.foldl max (max m x) = max m ((x :: xs).foldl max 0)
      rw [ih (max m x)]
      show _ = max m (xs.foldl max (max 0 x))
      rw [ih (max 0 x)]
      omega

theorem foldl_max_if_filter (ks : List Nat) :
    ∀ m : Nat,
      ks.foldl (fun acc s => if s < 999 then max acc s else acc) m
        = (ks.filter fun s => s < 999).foldl max m := by
  induction ks with
  | nil => intro m; rfl
  | cons k ks ih =>
      intro m
      by_cases hk : k < 999
      · show ks.foldl _ (if k < 999 then max m k else m) = _
        rw [if_pos hk, List.filter_cons_of_pos (by simpa using hk)]
        exact ih (max m k)
      · show ks.foldl _ (if k < 999 then max m k else m) = _
        rw [if_neg hk, List.filter_cons_of_neg (by simpa using hk)]
        exact ih m

theorem clipOffsets_step (step : Nat → Nat → Nat) :
    ∀ (lens : List Nat) (off i : Nat), i + 1 < lens.length →
      (clipOffsets step off lens).getD (i + 1) 0
        = step ((clipOffsets step off lens).getD i 0) (lens.getD i 0) := by
  intro lens
  induction lens with
  | nil =>
      intro off i hi
      simp at hi
  | cons l ls ih =>
      intro off i hi
      cases i with
      | zero =>
          cases ls with
          | nil => simp at hi
          | cons l' ls' => rfl
      | succ j =>
          have hj : j + 1 < ls.length := by simpa using hi
          show (clipOffsets step (step off l) ls).getD (j + 1) 0 = _
          rw [ih (step off l) j hj]
          rfl

/-- C5: under `1LONG` each clip's frame offset is the previous offset
plus its resolved length plus 1 (lengths 10 and 8 give offsets 0 and 11);
under `1LONG_EVERY100` the next clip's start is `offset + length` rounded
up to the next multiple of 100 (characterized as the unique multiple of
100 in `(offset+length, offset+length+100]`; a clip ending at 37 puts the
next start at 100); and the resolved clip length is the maximum of the
declared `anim_len`, the longest pose-track frame count, and the largest
`keyframe_start` below the sentinel 999. -/
theorem clip_scheduling_spec :
    (∀ (lens : List Nat) (i : Nat), i + 1 < lens.length →
      (clipOffsets next_anim_start_1long 0 lens).getD (i + 1) 0
        = (clipOffsets next_anim_start_1long 0 lens).getD i 0
            + lens.getD i 0 + 1)
    ∧ clipOffsets next_anim_start_1long 0 [10, 8] = [0, 11]
    ∧ (∀ off l : Nat, off + l = 37 → next_anim_start_every100 off l = 100)
    ∧ (∀ off l : Nat, 100 ∣ next_anim_start_every100 off l
        ∧ off + l < next_anim_start_every100 off l
        ∧ next_anim_start_every100 off l ≤ off + l + 100)
    ∧ (∀ (lens : List Nat) (i : Nat), i + 1 < lens.length →
      (clipOffsets next_anim_start_every100 0 lens).getD (i + 1) 0
        = next_anim_start_every100
            ((clipOffsets next_anim_start_every100 0 lens).getD i 0)
            (lens.getD i 0))
    ∧ (∀ (animLen : Nat) (ms ks : List Nat),
        full_anim_length animLen ms ks = resolvedLenSpec animLen ms ks) := by
  refine ⟨?_, by decide, ?_, ?_, ?_, ?_⟩
  · intro lens i hi
    exact clipOffsets_step next_anim_start_1long lens 0 i hi
  · intro off l h
    unfold next_anim_start_every100
    omega
  · intro off l
    unfold next_anim_start_every100
    refine ⟨dvd_mul_left 100 _, ?_, ?_⟩ <;> omega
  · intro lens i hi
    exact clipOffsets_step next_anim_start_every100 lens 0 i hi
  · intro animLen ms ks
    unfold full_anim_length resolvedLenSpec
    show ks.foldl (fun acc s => if s < 999 then max acc s else acc)
        (ms.foldl (fun acc n => max acc n) animLen) = _
    rw [foldl_max_if_filter, foldl_max_shift (ks.filter fun s => s < 999),
      foldl_max_shift ms]

/-- Witness for C5: the consecutive-offset laws at concrete inputs. -/
theorem clip_scheduling_spec_witness :
    (clipOffsets next_anim_start_1long 0 [10, 8]).getD 1 0
        = (clipOffsets next_anim_start_1long 0 [10, 8]).getD 0 0
            + ([10, 8] : List Nat).getD 0 0 + 1
    ∧ next_anim_start_every100 30 7 = 100 :=
  ⟨clip_scheduling_spec.1 [10, 8] 0 (by decide),
    clip_scheduling_spec.2.2.1 30 7 (by decide)⟩

-- ## Theorems for C10 (positional clip pairing) --------------------------

theorem zip_map_fst_take {α β : Type} :
    ∀ (l : List α) (l' : List β),
      (l.zip l').map Prod.fst = l.take (min l.length l'.length) := by
  intro l
  induction l with
  | nil =>
      intro l'
      simp
  | cons x xs ih =>
      intro l'
      cases l' with
      | nil => simp
      | cons y ys =>
          show x :: (xs.zip ys).map Prod.fst = _
          rw [ih ys]
          simp [Nat.succ_min_succ]

/-- C10: the per-anim loop pairs animations with pose tracks positionally
via `zip`, so exactly the first `min(#anims, #mprs)` animations are
compiled (in order), surplus animations are dropped with no error, and a
missing mpr directory yields zero pose tracks and hence zero compiled
clips. -/
theorem clipPairs_spec {α β : Type} (anims : List α) (mprs : List β) :
    (clipPairs anims mprs).length = min anims.length mprs.length
    ∧ (clipPairs anims mprs).map Prod.fst
        = anims.take (min anims.length mprs.length)
    ∧ (∀ i, (clipPairs anims mprs).get? i
        = (anims.get? i).bind fun a => (mprs.get? i).map fun m => (a, m))
    ∧ clipPairs anims (loadMprs (none : Option (List β))) = [] := by
  refine ⟨List.length_zip anims mprs, zip_map_fst_take anims mprs, ?_, ?_⟩
  · intro i
    induction anims generalizing i mprs with
    | nil => simp [clipPairs]
    | cons a as ih =>
        cases mprs with
        | nil => simp [clipPairs]
        | cons m ms =>
            cases i with
            | zero => rfl
            | succ j => exact ih ms j
  · show anims.zip [] = []
    simp

-- ## Theorems for C3 (vertex normalization) ------------------------------

/-- C3: `add_vertex` divides position by 1024, normal by 4096 and
texcoord by 4096 exactly when the prim uses the fixed-point
representation (`adjust_all_values`), always divides color RGB by 256 and
alpha by 128 regardless of representation, and `AnimatedPrim.add_vertex`
applies the same position/normal divisors to the morph deltas. -/
theorem add_vertex_normalization (prim : Prim) (position normal : ℚ × ℚ × ℚ)
    (color : ℚ × ℚ × ℚ × ℚ) (texcoord : ℚ × ℚ)
    (pd nd : ℚ × ℚ × ℚ) :
    (prim.add_vertex position normal color texcoord).positions
        = prim.positions
          ++ [if prim.adjust_all_values then
                (position.1 / 1024, position.2.1 / 1024, position.2.2 / 1024)
              else position]
    ∧ (prim.add_vertex position normal color texcoord).normals
        = prim.normals
          ++ [if prim.adjust_all_values then
                (normal.1 / 4096, normal.2.1 / 4096, normal.2.2 / 4096)
              else normal]
    ∧ (prim.add_vertex position normal color texcoord).texcoords
        = prim.texcoords
          ++ [if prim.adjust_all_values then
                (texcoord.1 / 4096, texcoord.2 / 4096)
              else texcoord]
    ∧ (prim.add_vertex position normal color texcoord).colors
        = prim.colors
          ++ [(color.1 / 256, color.2.1 / 256, color.2.2.1 / 256,
                color.2.2.2 / 128)]
    ∧ (prim.add_vertex_animated position normal color texcoord pd
          nd).position_animdeltas
        = prim.position_animdeltas
          ++ [if prim.adjust_all_values then
                (pd.1 / 1024, pd.2.1 / 1024, pd.2.2 / 1024)
              else pd]
    ∧ (prim.add_vertex_animated position normal color texcoord pd
          nd).normal_animdeltas
        = prim.normal_animdeltas
          ++ [if prim.adjust_all_values then
                (nd.1 / 4096, nd.2.1 / 4096, nd.2.2 / 4096)
              else nd] :=
  ⟨rfl, rfl, rfl, rfl, rfl, rfl⟩

-- ## Theorems for C6 (end-to-end blend-weight compilation) ---------------

/-- C6 counterexample: on keyframes `[(0, id=5, type=1, 0, 0),
(10, id=5, type=1, 0, 0), (999, null, 0, 0, 0)]` with submodel 5
animated, the compiled blend-weight curve is `[(0, 0), (10, 0)]`, not
the claimed `[(0, 0), (10, 1)]`: the second keyframe re-keys frame 10
with its own `interp_start = 0`, overwriting the `(10, 1)` end sample the
first keyframe had placed. -/
theorem blend_weight_c6_counterexample :
    (processBone ctxC6 CompState.empty kfsC6).map
        (fun st => getCurve st.shapekeyCurves 5)
      = some [(0, 0), (10, 0)]
    ∧ (processBone ctxC6 CompState.empty kfsC6).map
        (fun st => getCurve st.shapekeyCurves 5)
      ≠ some [(0, 0), (10, 1)] := by
  constructor
  · rfl
  · have h1 : (processBone ctxC6 CompState.empty kfsC6).map
        (fun st => getCurve st.shapekeyCurves 5)
        = some [(0, 0), (10, 0)] := rfl
    rw [h1]
    intro h
    exact absurd (Option.some.inj h) (by decide)

/-- C6 amended: the blend-weight curve contains exactly the samples
`(0, 0)` and `(10, 0)` (the later keyframe's `interp_start` overwrites
the earlier pair's end sample on the shared frame 10), and the
visibility timeline of submodel 5 holds value 1 at every sample and
simplifies to `[(0, 1)]`, with no forced hide sample. -/
theorem blend_weight_c6_amended :
    (processBone ctxC6 CompState.empty kfsC6).map
        (fun st => getCurve st.shapekeyCurves 5)
      = some [(0, 0), (10, 0)]
    ∧ (processBone ctxC6 CompState.empty kfsC6).map
        (fun st => getCurve st.scaleCurves (Slot.real 5))
      = some [(0, 1), (10, 1)]
    ∧ (processBone ctxC6 CompState.empty kfsC6).map
        (fun st =>
          simplify_scalehide_timeline (getCurve st.scaleCurves (Slot.real 5)))
      = some [(0, 1)] :=
  ⟨rfl, rfl, rfl⟩

-- ## Theorems for C2 (decoder error handling) ----------------------------

theorem vifLoop_succ (fuel : Nat) (s vu : List Nat) :
    vifLoop (fuel + 1) s vu
      = (if s.length < 4 then .error .truncated
        else if s.getD 3 0 = 0x17 then .ok (vu, s.drop 4)
        else if s.getD 3 0 = 0x00 ∨ s.getD 3 0 = 0x01 then
          vifLoop fuel (s.drop 4) vu
        else if s.getD 3 0 = 0x6C then
          if (s.drop 4).length < s.getD 2 0 * 16 then .error .truncated
          else vifLoop fuel ((s.drop 4).drop (s.getD 2 0 * 16))
            (vu ++ (s.drop 4).take (s.getD 2 0 * 16))
        else if s.getD 3 0 = 0x6D then
          if (s.drop 4).length < s.getD 2 0 * 8 then .error .truncated
          else vifLoop fuel ((s.drop 4).drop (s.getD 2 0 * 8))
            (vu ++ widen16 ((s.drop 4).take (s.getD 2 0 * 8)))
        else .error .invalidFormat) := rfl

/-- The fuel of `vifLoop` is an artifact: any fuel covering the worst
case of one iteration per 4 bytes gives the same result, so `vifLoop
s.length s vu` is the loop's semantics. -/
theorem vifLoop_fuel_stable :
    ∀ (fuel : Nat) (s vu : List Nat), s.length ≤ 4 * fuel →
      vifLoop (fuel + 1) s vu = vifLoop fuel s vu := by
  intro fuel
  induction fuel with
  | zero =>
      intro s vu h
      rw [vifLoop_succ, if_pos (by omega : s.length < 4)]
      rfl
  | succ f ih =>
      intro s vu h
      rw [vifLoop_succ (f + 1) s vu, vifLoop_succ f s vu]
      by_cases h4 : s.length < 4
      · rw [if_pos h4, if_pos h4]
      · rw [if_neg h4, if_neg h4]
        by_cases h17 : s.getD 3 0 = 0x17
        · rw [if_pos h17, if_pos h17]
        · rw [if_neg h17, if_neg h17]
          by_cases hnop : s.getD 3 0 = 0x00 ∨ s.getD 3 0 = 0x01
          · rw [if_pos hnop, if_pos hnop]
            exact ih (s.drop 4) vu (by rw [List.length_drop]; omega)
          · rw [if_neg hnop, if_neg hnop]
            by_cases h6c : s.getD 3 0 = 0x6C
            · rw [if_pos h6c, if_pos h6c]
              by_cases hl : (s.drop 4).length < s.getD 2 0 * 16
              · rw [if_pos hl, if_pos hl]
              · rw [if_neg hl, if_neg hl]
                refine ih _ _ ?_
                rw [List.length_drop, List.length_drop]
                omega
            · rw [if_neg h6c, if_neg h6c]
              by_cases h6d : s.getD 3 0 = 0x6D
              · rw [if_pos h6d, if_pos h6d]
                by_cases hl : (s.drop 4).length < s.getD 2 0 * 8
                · rw [if_pos hl, if_pos hl]
                · rw [if_neg hl, if_neg hl]
                  refine ih _ _ ?_
                  rw [List.length_drop, List.length_drop]
                  omega
              · rw [if_neg h6d, if_neg h6d]

theorem primsLoop_succ (isSint animated : Bool) (fuel : Nat)
    (vu : List Nat) :
    primsLoop isSint animated (fuel + 1) vu
      = (if vu.length < 16 then .error .truncated
        else if (vu.drop 16).length
            < (if animated then 96 else 64) * (leNat (vu.take 4) % 2 ^ 15)
          then .error .truncated
        else if leNat (vu.take 4) / 2 ^ 15 % 2 = 1 then
          .ok [readVertices isSint animated (leNat (vu.take 4) % 2 ^ 15)
            (Prim.empty isSint)
            ((vu.drop 16).take ((if animated then 96 else 64)
              * (leNat (vu.take 4) % 2 ^ 15)))]
        else
          match primsLoop isSint animated fuel
              ((vu.drop 16).drop ((if animated then 96 else 64)
                * (leNat (vu.take 4) % 2 ^ 15))) with
          | .error e => .error e
          | .ok prims =>
              .ok (readVertices isSint animated (leNat (vu.take 4) % 2 ^ 15)
                (Prim.empty isSint)
                ((vu.drop 16).take ((if animated then 96 else 64)
                  * (leNat (vu.take 4) % 2 ^ 15))) :: prims)) := rfl

/-- The fuel of `primsLoop` is likewise an artifact: every iteration
consumes at least the 16-byte prim header, so any fuel of at least one
sixteenth of the VU memory size gives the same result. -/
theorem primsLoop_fuel_stable (isSint animated : Bool) :
    ∀ (fuel : Nat) (vu : List Nat), vu.length ≤ 16 * fuel →
      primsLoop isSint animated (fuel + 1) vu
        = primsLoop isSint animated fuel vu := by
  intro fuel
  induction fuel with
  | zero =>
      intro vu h
      rw [primsLoop_succ, if_pos (by omega : vu.length < 16)]
      rfl
  | succ f ih =>
      intro vu h
      rw [primsLoop_succ isSint animated (f + 1) vu,
        primsLoop_succ isSint animated f vu]
      by_cases h16 : vu.length < 16
      · rw [if_pos h16, if_pos h16]
      · rw [if_neg h16, if_neg h16]
        by_cases hverts : (vu.drop 16).length
            < (if animated then 96 else 64) * (leNat (vu.take 4) % 2 ^ 15)
        · rw [if_pos hverts, if_pos hverts]
        · rw [if_neg hverts, if_neg hverts]
          by_cases hlast : leNat (vu.take 4) / 2 ^ 15 % 2 = 1
          · rw [if_pos hlast, if_pos hlast]
          · rw [if_neg hlast, if_neg hlast]
            rw [ih ((vu.drop 16).drop ((if animated then 96 else 64)
              * (leNat (vu.take 4) % 2 ^ 15)))
              (by rw [List.length_drop, List.length_drop]; omega)]

/-- C2: `pm2_from_bytes` is total with exactly two failure classes
(never a partial model); a stream shorter than the 16-byte header fails
with the truncation error; a bad 3-byte magic and an unknown type byte
fail with the invalid-format error; an unknown VIF opcode (here 0xFF)
aborts the whole decode with the invalid-format error; and a stream
ending before an expected read (here: a declared group with no stream
left) fails with the truncation error. -/
theorem pm2_from_bytes_error_spec :
    (∀ bs : List Nat, (∃ m, pm2_from_bytes bs = .ok m)
        ∨ pm2_from_bytes bs = .error .truncated
        ∨ pm2_from_bytes bs = .error .invalidFormat)
    ∧ (∀ bs : List Nat, bs.length < 16 →
        pm2_from_bytes bs = .error .truncated)
    ∧ (∀ bs : List Nat, 16 ≤ bs.length → ¬ bs.take 3 = [0x50, 0x4D, 0x32] →
        pm2_from_bytes bs = .error .invalidFormat)
    ∧ (∀ bs : List Nat, 16 ≤ bs.length → bs.take 3 = [0x50, 0x4D, 0x32] →
        ¬ (bs.getD 3 0 = 0x12 ∨ bs.getD 3 0 = 0x13 ∨ bs.getD 3 0 = 0x32
          ∨ bs.getD 3 0 = 0x33) →
        pm2_from_bytes bs = .error .invalidFormat)
    ∧ pm2_from_bytes
        [0x50, 0x4D, 0x32, 0x12, 0, 0, 0, 0, 0, 0, 0, 0, 1, 0, 0, 0,
          0, 0, 0, 0xFF] = .error .invalidFormat
    ∧ pm2_from_bytes
        [0x50, 0x4D, 0x32, 0x12, 0, 0, 0, 0, 0, 0, 0, 0, 1, 0, 0, 0]
        = .error .truncated := by
  refine ⟨?_, ?_, ?_, ?_, rfl, rfl⟩
  · intro bs
    cases h : pm2_from_bytes bs with
    | error e =>
        cases e with
        | truncated => exact Or.inr (Or.inl rfl)
        | invalidFormat => exact Or.inr (Or.inr rfl)
    | ok m => exact Or.inl ⟨m, rfl⟩
  · intro bs h
    unfold pm2_from_bytes
    rw [if_pos h]
  · intro bs hlen hmagic
    unfold pm2_from_bytes
    rw [if_neg (by omega), if_pos hmagic]
  · intro bs hlen hmagic htype
    unfold pm2_from_bytes
    rw [if_neg (by omega), if_neg (not_not.mpr hmagic), if_pos htype]

/-- Witness for C2 at concrete inputs: a 3-byte stream and a 16-byte
stream with magic "XM2". -/
theorem pm2_from_bytes_error_spec_witness :
    pm2_from_bytes [1, 2, 3] = .error .truncated
    ∧ pm2_from_bytes
        [0x58, 0x4D, 0x32, 0x12, 0, 0, 0, 0, 0, 0, 0, 0, 0, 0, 0, 0]
        = .error .invalidFormat :=
  ⟨pm2_from_bytes_error_spec.2.1 [1, 2, 3] (by decide),
    pm2_from_bytes_error_spec.2.2.1
      [0x58, 0x4D, 0x32, 0x12, 0, 0, 0, 0, 0, 0, 0, 0, 0, 0, 0, 0]
      (by decide) (by decide)⟩

end GhsPm2
